import Mathlib

/-!
A verification development for the piaflow/noppflow pipeline-execution core.

The Go sources embedded here:
  * `internal/config` — `Step`, `App`, `Step.Kind`, `App.EffectiveSteps`,
    the private `strconvItoa`;
  * `internal/pipeline` — `Runner.Run`, `appendLog`, `runStepWithLog`,
    `splitCommand`;
  * `internal/server/k8s_job_runner.go` — `runAppAsK8sJob`,
    `buildK8sJobScript`, `shellQuote`, the poll loop.

Effectful operations (subprocesses, the filesystem, kubectl) are abstracted
by oracles (`ExecEnv`, `K8sEnv`): each effect is modelled by the data it can
feed back into the program (output text appended to the log, an optional
error).  The log buffer is modelled as the ordered list of chunks written to
it (`RunState.writes`), each tagged with whether it was written through
`appendLog` (and hence triggered the log-update callback) or raw subprocess
output; the flat log string is the concatenation of the chunks.  Cluster
side effects are modelled as an ordered action trace (`K8sAction`).
-/

set_option maxHeartbeats 1000000

namespace Piaflow

/-- The ASCII characters Go's `strings.TrimSpace` removes
(`'\t'`, `'\n'`, `'\v'`, `'\f'`, `'\r'`, `' '`). -/
def isGoSpace (c : Char) : Bool :=
  c = ' ' || c = '\t' || c = '\n' || c = '\x0b' || c = '\x0c' || c = '\r'

/-- Model of Go's `strings.TrimSpace`: drop leading and trailing whitespace. -/
def goTrim (s : String) : String :=
  String.mk (List.rdropWhile isGoSpace (List.dropWhile isGoSpace s.data))

/-- Concatenation of a list of strings, in order. -/
def concatAll : List String → String
  | [] => ""
  | s :: rest => s ++ concatAll rest

/-- Relation `strLe a b` holds when `b` extends `a` on the right. -/
def strLe (a b : String) : Prop := ∃ t : String, b = a ++ t

/-- Each string in the list extends the previous one on the right. -/
def PrefixChain : List String → Prop
  | [] => True
  | [_] => True
  | a :: b :: rest => strLe a b ∧ PrefixChain (b :: rest)

/-- The digit-accumulating loop of the repository's `strconvItoa`
(fuel-indexed; fuel `n` suffices since the argument shrinks by `/ 10`). -/
def itoaLoop : Nat → Nat → List Char → List Char
  | _, 0, acc => acc
  | n, fuel + 1, acc =>
    if n = 0 then acc else itoaLoop (n / 10) fuel (Char.ofNat (48 + n % 10) :: acc)

/-- Model of the repository's private `strconvItoa`. -/
def strconvItoa (n : Nat) : String :=
  if n = 0 then "0" else String.mk (itoaLoop n n [])

/-- Model of `config.Step`: one pipeline step. -/
structure Step where
  name : String
  cmd : String
  file : String
  script : String
  k8sDeploy : Bool
  sleepSec : Int
deriving DecidableEq

/-- Model of `Step.Kind`: classify the step by which mode fields are set, mirroring the
Go sequence of count/kind assignments; returns `""` unless exactly one of
cmd/file/script/k8s_deploy is set (after trimming the string fields). -/
def Step.kind (s : Step) : String :=
  let cmd := goTrim s.cmd
  let file := goTrim s.file
  let scr := goTrim s.script
  let c1 : Nat := if cmd ≠ "" then 1 else 0
  let k1 := if cmd ≠ "" then "cmd" else ""
  let c2 := if file ≠ "" then c1 + 1 else c1
  let k2 := if file ≠ "" then "file" else k1
  let c3 := if scr ≠ "" then c2 + 1 else c2
  let k3 := if scr ≠ "" then "script" else k2
  let c4 := if s.k8sDeploy then c3 + 1 else c3
  let k4 := if s.k8sDeploy then "k8s_deploy" else k3
  if c4 ≠ 1 then "" else k4

/-- Model of `config.App`: one configured pipeline target. -/
structure App where
  id : String
  name : String
  repo : String
  branch : String
  sshKeyName : String
  deployMode : String
  k8sNamespace : String
  k8sServiceAccount : String
  k8sRunnerImage : String
  deployManifestPath : String
  helmChart : String
  helmValuesPath : String
  steps : List Step
  buildCmd : String
  testCmd : String
  deployCmd : String
  testSleepSec : Int
  buildSleepSec : Int
  deploySleepSec : Int
deriving DecidableEq

/-- The per-entry normalization done inside `EffectiveSteps` for an explicit
step list: trim the string fields and default a blank name to `step-<i+1>`
(`i` is the 0-based index). -/
def normalizeStep (i : Nat) (s : Step) : Step :=
  let n := goTrim s.name
  { name := if n = "" then "step-" ++ strconvItoa (i + 1) else n
    cmd := goTrim s.cmd
    file := goTrim s.file
    script := goTrim s.script
    k8sDeploy := s.k8sDeploy
    sleepSec := s.sleepSec }

/-- The loop of `EffectiveSteps` over an explicit step list: normalize each
entry, dropping entries whose `Kind` resolves to `""`. -/
def normalizeSteps : Nat → List Step → List Step
  | _, [] => []
  | i, s :: rest =>
    let n := normalizeStep i s
    (if n.kind = "" then [] else [n]) ++ normalizeSteps (i + 1) rest

/-- Model of `App.EffectiveSteps`: the explicit list normalized, or up to three steps
synthesized from the legacy test/build/deploy command fields. -/
def App.effectiveSteps (a : App) : List Step :=
  if a.steps.length > 0 then
    normalizeSteps 0 a.steps
  else
    (if goTrim a.testCmd ≠ "" then
      [{ name := "test", cmd := goTrim a.testCmd, file := "", script := "",
         k8sDeploy := false, sleepSec := a.testSleepSec }]
     else [])
    ++ (if goTrim a.buildCmd ≠ "" then
      [{ name := "build", cmd := goTrim a.buildCmd, file := "", script := "",
         k8sDeploy := false, sleepSec := a.buildSleepSec }]
     else [])
    ++ (if goTrim a.deployCmd ≠ "" then
      [{ name := "deploy", cmd := goTrim a.deployCmd, file := "", script := "",
         k8sDeploy := false, sleepSec := a.deploySleepSec }]
     else [])

/-- The rune loop of `splitCommand`: split on `' '` outside quotes, treat a
single or double quote character as a toggle, and append everything else to
the current buffer. -/
def splitAux : List Char → List Char → Bool → List String
  | [], buf, _ => if buf.isEmpty then [] else [String.mk buf]
  | c :: rest, buf, quote =>
    if c = ' ' then
      if quote then splitAux rest (buf ++ [c]) quote
      else if buf.isEmpty then splitAux rest [] quote
      else String.mk buf :: splitAux rest [] quote
    else if c = '"' || c = '\'' then splitAux rest buf (!quote)
    else splitAux rest (buf ++ [c]) quote

/-- Model of `pipeline.splitCommand`. -/
def splitCommand (s : String) : List String := splitAux s.data [] false

/-- Split a character stream into maximal non-empty words, with `sep`
deciding which characters separate words (spec-side comparison function). -/
def wordsAux (sep : Char → Bool) : List Char → List Char → List String
  | [], buf => if buf.isEmpty then [] else [String.mk buf]
  | c :: rest, buf =>
    if sep c then
      if buf.isEmpty then wordsAux sep rest []
      else String.mk buf :: wordsAux sep rest []
    else wordsAux sep rest (buf ++ [c])

/-- The space-separated non-empty words of a string. -/
def spaceWords (s : String) : List String := wordsAux (fun c => c = ' ') s.data []

/-- The whitespace-separated non-empty words of a string (what the claim's
"whitespace as the separator" denotes). -/
def wsWords (s : String) : List String := wordsAux isGoSpace s.data []

/-- Model of `pipeline.Result`. -/
structure Result where
  success : Bool
  log : String
deriving DecidableEq

/-- One write into the run's log buffer, tagged with whether it went through
`appendLog` (which also fires the log-update callback). -/
structure Write where
  viaLog : Bool
  text : String
deriving DecidableEq

/-- The observable state of one local run: the ordered buffer writes and the
sequence of strings passed to the log-update callback. -/
structure RunState where
  writes : List Write
  calls : List String
deriving DecidableEq

/-- The flat log text: concatenation of all buffer writes. -/
def RunState.log (st : RunState) : String := concatAll (st.writes.map Write.text)

/-- Model of `appendLog` in `Runner.Run`: write the line plus a newline to the buffer,
then pass the whole log to the callback. -/
def appendLog (st : RunState) (line : String) : RunState :=
  let ws := st.writes ++ [{ viaLog := true, text := line ++ "\n" }]
  { writes := ws, calls := st.calls ++ [concatAll (ws.map Write.text)] }

/-- A bare `onLogUpdate(log.String())` call (no buffer write). -/
def notify (st : RunState) : RunState :=
  { st with calls := st.calls ++ [st.log] }

/-- A raw write of subprocess output into the buffer (no callback). -/
def writeRaw (st : RunState) (out : String) : RunState :=
  { st with writes := st.writes ++ [{ viaLog := false, text := out }] }

/-- Oracle for the effectful operations of one local `Runner.Run`: which
filesystem/git operations fail, the `.git` marker check, the `rev-parse`
output, and per step index what the subprocess writes and whether it fails. -/
structure ExecEnv where
  mkdirWorkErr : Option String
  gitMarkerPresent : Bool
  mkdirAppErr : Option String
  cloneErr : Option String
  pullErr : Option String
  commitOutput : String
  stepOutputs : Nat → String
  stepErrs : Nat → Option String

/-- Model of `runStepWithLog`: dispatch on `Step.Kind`.  Each of the four valid kinds
runs a subprocess that writes its combined output to the log and may fail
(both given by the oracle at the step's index); any other kind is the
`"invalid step execution mode"` error, with no output written. -/
def runStepWithLog (env : ExecEnv) (i : Nat) (step : Step) (st : RunState) :
    RunState × Option String :=
  match step.kind with
  | "cmd" => (writeRaw st (env.stepOutputs i), env.stepErrs i)
  | "file" => (writeRaw st (env.stepOutputs i), env.stepErrs i)
  | "script" => (writeRaw st (env.stepOutputs i), env.stepErrs i)
  | "k8s_deploy" => (writeRaw st (env.stepOutputs i), env.stepErrs i)
  | _ => (st, some "invalid step execution mode")

/-- The step loop of `Runner.Run`: boundary marker, dispatch, on failure an
extra callback plus the failure marker and an aborted run, on success the OK
marker and the optional post-step sleep (sleep line, then another callback). -/
def runLoop (env : ExecEnv) : List Step → Nat → RunState → Bool × RunState
  | [], _, st => (true, appendLog st "pipeline completed successfully")
  | step :: rest, i, st =>
    let st1 := appendLog st ("=== Step: " ++ step.name ++ " ===")
    match runStepWithLog env i step st1 with
    | (st2, some e) => (false, appendLog (notify st2) (step.name ++ " step failed: " ++ e))
    | (st2, none) =>
      let st3 := appendLog st2 (step.name ++ " step OK")
      let st4 :=
        if 0 < step.sleepSec then
          notify (appendLog st3 ("Sleeping " ++ toString step.sleepSec ++ "s after " ++ step.name ++ "..."))
        else st3
      runLoop env rest (i + 1) st4

/-- The tail of `Runner.Run` after a successful source sync: record the HEAD
commit (best effort) and run the effective steps. -/
def runAfterSync (env : ExecEnv) (app : App) (st : RunState) : Result × RunState :=
  let st1 := appendLog st ("commit: " ++ goTrim env.commitOutput)
  let r := runLoop env app.effectiveSteps 0 st1
  ({ success := r.1, log := r.2.log }, r.2)

/-- Model of `Runner.Run`: work-dir creation, clone-or-pull source sync (each failure
immediately fatal), then the step loop. -/
def runPipeline (env : ExecEnv) (app : App) : Result × RunState :=
  let st0 : RunState := { writes := [], calls := [] }
  match env.mkdirWorkErr with
  | some e =>
    let st := appendLog st0 ("mkdir work dir: " ++ e)
    ({ success := false, log := st.log }, st)
  | none =>
    if env.gitMarkerPresent then
      match env.pullErr with
      | some e =>
        let st := appendLog st0 ("git pull: " ++ e)
        ({ success := false, log := st.log }, st)
      | none => runAfterSync env app st0
    else
      match env.mkdirAppErr with
      | some e =>
        let st := appendLog st0 ("mkdir app dir: " ++ e)
        ({ success := false, log := st.log }, st)
      | none =>
        match env.cloneErr with
        | some e =>
          let st := appendLog st0 ("git clone: " ++ e)
          ({ success := false, log := st.log }, st)
        | none => runAfterSync env app st0

/-- The source-sync phase succeeds under this oracle. -/
def ExecEnv.syncOk (env : ExecEnv) : Bool :=
  env.mkdirWorkErr.isNone &&
    (if env.gitMarkerPresent then env.pullErr.isNone
     else env.mkdirAppErr.isNone && env.cloneErr.isNone)

/-- The source-sync phase fails under this oracle. -/
def ExecEnv.syncFailed (env : ExecEnv) : Bool := !env.syncOk

/-- The buffer writes produced by one successfully executed step at index
`i`: boundary marker, subprocess output, OK marker, optional sleep line. -/
def okStepWrites (env : ExecEnv) (i : Nat) (s : Step) : List Write :=
  [{ viaLog := true, text := "=== Step: " ++ s.name ++ " ===" ++ "\n" },
   { viaLog := false, text := env.stepOutputs i },
   { viaLog := true, text := s.name ++ " step OK" ++ "\n" }]
  ++ (if 0 < s.sleepSec then
        [{ viaLog := true,
           text := "Sleeping " ++ toString s.sleepSec ++ "s after " ++ s.name ++ "..." ++ "\n" }]
      else [])

/-- The buffer writes produced by a run of successful steps starting at
index `i`. -/
def okWrites (env : ExecEnv) : Nat → List Step → List Write
  | _, [] => []
  | i, s :: rest => okStepWrites env i s ++ okWrites env (i + 1) rest

/-- The character loop of `shellQuote`'s `strings.ReplaceAll`. -/
def shellQuoteList : List Char → List Char
  | [] => []
  | c :: rest => (if c = '\'' then "'\"'\"'".data else [c]) ++ shellQuoteList rest

/-- Model of `shellQuote`: wrap in single quotes, escaping embedded single quotes. -/
def shellQuote (s : String) : String :=
  "'" ++ String.mk (shellQuoteList s.data) ++ "'"

/-- The per-step lines emitted by the loop of `buildK8sJobScript`. -/
def stepScriptLines (app : App) (step : Step) : List String :=
  ["echo " ++ shellQuote ("=== Step: " ++ step.name ++ " ===")]
  ++ (match step.kind with
    | "cmd" => ["sh -c " ++ shellQuote step.cmd]
    | "file" => ["sh " ++ shellQuote step.file]
    | "script" => ["printf %s " ++ shellQuote step.script ++ " | sh"]
    | "k8s_deploy" =>
      if app.deployMode = "kubectl" then
        ["kubectl -n " ++ shellQuote app.k8sNamespace ++ " apply -f "
          ++ shellQuote app.deployManifestPath]
      else if app.deployMode = "helm" then
        [(let helmCmd := "helm upgrade --install " ++ shellQuote app.id ++ " "
            ++ shellQuote app.helmChart ++ " -n " ++ shellQuote app.k8sNamespace
          if goTrim app.helmValuesPath ≠ "" then
            helmCmd ++ " -f " ++ shellQuote app.helmValuesPath
          else helmCmd)]
      else []
    | _ => [])
  ++ ["echo " ++ shellQuote (step.name ++ " step OK")]
  ++ (if 0 < step.sleepSec then ["sleep " ++ toString step.sleepSec] else [])

/-- Concatenate the line lists produced for each step, in order. -/
def concatMapLines (f : Step → List String) : List Step → List String
  | [] => []
  | s :: rest => f s ++ concatMapLines f rest

/-- Model of Go's `strings.Join(lines, "\n")`. -/
def joinLines : List String → String
  | [] => ""
  | [s] => s
  | s :: rest => s ++ "\n" ++ joinLines rest

/-- The fixed preamble lines of `buildK8sJobScript`. -/
def scriptPreamble (app : App) : List String :=
  ["set -eu", "mkdir -p /workspace", "cd /workspace",
   "export GIT_SSH_COMMAND="
     ++ shellQuote "ssh -i /var/run/noppflow-ssh/id_key -o IdentitiesOnly=yes -o StrictHostKeyChecking=accept-new",
   "git clone --branch " ++ shellQuote app.branch ++ " --single-branch "
     ++ shellQuote app.repo ++ " repo",
   "cd repo"]

/-- Model of `buildK8sJobScript`. -/
def buildK8sJobScript (app : App) : String :=
  joinLines
    (scriptPreamble app ++ concatMapLines (stepScriptLines app) app.effectiveSteps
      ++ ["echo 'pipeline completed successfully'"])

/-- A cluster side effect of `runAppAsK8sJob` that created or deleted an
object (the YAML bodies are irrelevant to the claims and are abstracted to
the identifying namespace/name fields). -/
inductive K8sAction where
  | applySecret (namespaceName secretName : String)
  | applyJob (namespaceName jobName : String)
  | deleteSecret (namespaceName kindName resourceName : String)
deriving DecidableEq

/-- One iteration of the poll loop as observed through kubectl: the fetched
pod log (`none` = fetch error, tolerated) and the job-status probe (`none` =
probe error, tolerated; `some (done, success)` otherwise). -/
structure PollIter where
  logRes : Option String
  doneRes : Option (Bool × Bool)
deriving DecidableEq

/-- Oracle for one `runAppAsK8sJob`: whether the two kubectl applies fail,
and the poll observations of the iterations that run before the 30-minute
deadline expires. -/
structure K8sEnv where
  secretApplyErr : Option String
  jobApplyErr : Option String
  iters : List PollIter

/-- The poll loop of `runAppAsK8sJob`: refresh the cached log, return on a
terminal job status, and fail with the timeout marker when the deadline
expires (modelled by the iteration list running out). -/
def pollLoop : List PollIter → String → Result
  | [], lastLog =>
    { success := false,
      log := if lastLog = "" then "k8s job timed out" else lastLog ++ "\n\nk8s job timed out" }
  | it :: rest, lastLog =>
    let lastLog1 := match it.logRes with
      | some l => l
      | none => lastLog
    match it.doneRes with
    | some (true, succ) => { success := succ, log := lastLog1 }
    | _ => pollLoop rest lastLog1

/-- Result and cluster-action trace of one `runAppAsK8sJob`. -/
structure K8sRun where
  result : Result
  actions : List K8sAction
deriving DecidableEq

/-- Model of `runAppAsK8sJob`: precondition checks (no side effect on failure), then
secret apply, job apply and the poll loop; the deferred best-effort deletion
of the credential secret runs on every exit path reached after the secret
was created. -/
def runAppAsK8sJob (env : K8sEnv) (runID : Int) (app : App) : K8sRun :=
  let ns := goTrim app.k8sNamespace
  if ns = "" then
    { result := { success := false, log := "k8s namespace is required" }, actions := [] }
  else
    let sa := goTrim app.k8sServiceAccount
    if sa = "" then
      { result := { success := false, log := "k8s service account is required" }, actions := [] }
    else
      let img := goTrim app.k8sRunnerImage
      if img = "" then
        { result := { success := false, log := "k8s runner image is required" }, actions := [] }
      else
        let jobName := "noppflow-run-" ++ toString runID
        let secretName := jobName ++ "-ssh"
        let script := buildK8sJobScript app
        if goTrim script = "" then
          { result := { success := false, log := "empty k8s job script" }, actions := [] }
        else
          match env.secretApplyErr with
          | some e =>
            { result := { success := false, log := "failed to create ssh secret: " ++ e },
              actions := [] }
          | none =>
            match env.jobApplyErr with
            | some e =>
              { result := { success := false, log := "failed to create job: " ++ e },
                actions := [.applySecret ns secretName, .deleteSecret ns "secret" secretName] }
            | none =>
              { result := pollLoop env.iters "",
                actions := [.applySecret ns secretName, .applyJob ns jobName,
                            .deleteSecret ns "secret" secretName] }

/-- ASCII lowercasing of one character (model of Go's strings.ToLower on
the ASCII range). -/
def toLowerChar (c : Char) : Char :=
  if 'A' ≤ c ∧ c ≤ 'Z' then Char.ofNat (c.toNat + 32) else c

/-- Model of Go's `strings.ToLower` (ASCII range). -/
def goToLower (s : String) : String := String.mk (s.data.map toLowerChar)

/-- Spec-side renderer (refinement comparison for the cluster script): the
same four-way dispatch as the Local Executor, with a `k8s_deploy` step
rendered using the Local Executor's deploy handling — deploy mode trimmed
and lowercased, and the helm release name defaulting to `noppflow-release`
when the app id is empty. -/
def specStepLines (app : App) (step : Step) : List String :=
  ["echo " ++ shellQuote ("=== Step: " ++ step.name ++ " ===")]
  ++ (match step.kind with
    | "cmd" => ["sh -c " ++ shellQuote step.cmd]
    | "file" => ["sh " ++ shellQuote step.file]
    | "script" => ["printf %s " ++ shellQuote step.script ++ " | sh"]
    | "k8s_deploy" =>
      match goTrim (goToLower app.deployMode) with
      | "kubectl" =>
        ["kubectl -n " ++ shellQuote app.k8sNamespace ++ " apply -f "
          ++ shellQuote app.deployManifestPath]
      | "helm" =>
        let releaseName := if app.id = "" then "noppflow-release" else app.id
        [(let helmCmd := "helm upgrade --install " ++ shellQuote releaseName ++ " "
            ++ shellQuote app.helmChart ++ " -n " ++ shellQuote app.k8sNamespace
          if goTrim app.helmValuesPath ≠ "" then
            helmCmd ++ " -f " ++ shellQuote app.helmValuesPath
          else helmCmd)]
      | _ => []
    | _ => [])
  ++ ["echo " ++ shellQuote (step.name ++ " step OK")]
  ++ (if 0 < step.sleepSec then ["sleep " ++ toString step.sleepSec] else [])

/-- Spec-side cluster script built from `specStepLines`. -/
def specClusterScript (app : App) : String :=
  joinLines
    (scriptPreamble app ++ concatMapLines (specStepLines app) app.effectiveSteps
      ++ ["echo 'pipeline completed successfully'"])

/-- Exactly one of the four step mode fields is set, after trimming the
string fields — the side of the C2 iff stated in the claim's own terms. -/
def exactlyOneMode (s : Step) : Prop :=
  ((if goTrim s.cmd ≠ "" then 1 else 0) + (if goTrim s.file ≠ "" then 1 else 0)
    + (if goTrim s.script ≠ "" then 1 else 0) + (if s.k8sDeploy then 1 else 0) : Nat) = 1

instance (s : Step) : Decidable (exactlyOneMode s) := by
  unfold exactlyOneMode; infer_instance

/-- The invariant maintained by the local run on its observable state:
the callback sequence is a chain of extensions, every callback string is a
left factor of the current log, and every `appendLog` write put the log as
of that write into the callback sequence. -/
def GoodState (st : RunState) : Prop :=
  PrefixChain st.calls ∧ (∀ c ∈ st.calls, strLe c st.log)
  ∧ (∀ m (h : m < st.writes.length), (st.writes.get ⟨m, h⟩).viaLog = true →
      concatAll ((st.writes.take (m + 1)).map Write.text) ∈ st.calls)

/-- An app template with every field empty, for concrete evaluations. -/
def baseApp : App :=
  { id := "", name := "", repo := "", branch := "", sshKeyName := "",
    deployMode := "", k8sNamespace := "", k8sServiceAccount := "",
    k8sRunnerImage := "", deployManifestPath := "", helmChart := "",
    helmValuesPath := "", steps := [], buildCmd := "", testCmd := "",
    deployCmd := "", testSleepSec := 0, buildSleepSec := 0, deploySleepSec := 0 }

/-- An app with three explicit cmd steps (concrete evaluation input). -/
def wApp3 : App :=
  { baseApp with
    id := "demo", repo := "git@example:demo.git", branch := "main",
    steps :=
      [{ name := "alpha", cmd := "make a", file := "", script := "", k8sDeploy := false, sleepSec := 0 },
       { name := "beta", cmd := "make b", file := "", script := "", k8sDeploy := false, sleepSec := 0 },
       { name := "gamma", cmd := "make c", file := "", script := "", k8sDeploy := false, sleepSec := 0 }] }

/-- An oracle where sync succeeds, step 0 succeeds and step 1 fails. -/
def wEnvFail1 : ExecEnv :=
  { mkdirWorkErr := none, gitMarkerPresent := false, mkdirAppErr := none,
    cloneErr := none, pullErr := none, commitOutput := "abc123\n",
    stepOutputs := fun _ => "ok-output\n",
    stepErrs := fun i => if i = 1 then some "exit status 2" else none }

/-- An oracle whose work-directory creation fails. -/
def wEnvSyncFail : ExecEnv :=
  { mkdirWorkErr := some "permission denied", gitMarkerPresent := false,
    mkdirAppErr := none, cloneErr := none, pullErr := none, commitOutput := "",
    stepOutputs := fun _ => "", stepErrs := fun _ => none }

/-- An app with only legacy command fields (concrete evaluation input). -/
def wAppLegacy : App :=
  { baseApp with testCmd := "go test ./...", buildCmd := "go build ./...",
                 deployCmd := "   ", testSleepSec := 2, buildSleepSec := 3 }

/-- An app configured for a cluster job (concrete evaluation input). -/
def wAppK8s : App :=
  { baseApp with
    id := "k8s-app", deployMode := "kubectl", k8sNamespace := "apps",
    k8sServiceAccount := "runner", k8sRunnerImage := "noppflow-runner:latest",
    deployManifestPath := "deploy.yaml",
    steps := [{ name := "deploy", cmd := "", file := "", script := "",
                k8sDeploy := true, sleepSec := 0 }] }

/-- A kubectl oracle whose applies succeed and that never observes a
terminal job status. -/
def wK8sEnvTimeout : K8sEnv :=
  { secretApplyErr := none, jobApplyErr := none,
    iters := [{ logRes := some "step log", doneRes := some (false, false) },
              { logRes := none, doneRes := none }] }

/-- An app whose deploy mode is `"Kubectl"` (capitalised): the Local
Executor lowercases it and runs kubectl, the cluster renderer compares the
raw string and renders nothing. -/
def cApp8 : App :=
  { wAppK8s with deployMode := "Kubectl" }

end Piaflow

namespace Piaflow

theorem data_mk (l : List Char) : (String.mk l).data = l := rfl

theorem str_empty_append (s : String) : "" ++ s = s :=
  String.ext (by simp)

theorem concatAll_append (a b : List String) :
    concatAll (a ++ b) = concatAll a ++ concatAll b := by
  induction a with
  | nil => simp [concatAll, str_empty_append]
  | cons x xs ih => simp [concatAll, ih, String.append_assoc]

theorem strLe_refl (a : String) : strLe a a :=
  ⟨"", (String.ext (by simp)).symm⟩

theorem strLe_trans {a b c : String} (h1 : strLe a b) (h2 : strLe b c) : strLe a c := by
  obtain ⟨t, ht⟩ := h1
  obtain ⟨u, hu⟩ := h2
  exact ⟨t ++ u, by rw [hu, ht, String.append_assoc]⟩

theorem strLe_append (a t : String) : strLe a (a ++ t) := ⟨t, rfl⟩

theorem prefixChain_snoc : ∀ (l : List String) (x : String),
    PrefixChain l → (∀ c ∈ l, strLe c x) → PrefixChain (l ++ [x]) := by
  intro l
  induction l with
  | nil => intro x _ _; exact trivial
  | cons a rest ih =>
    intro x hchain hall
    cases rest with
    | nil =>
      exact ⟨hall a (by simp), trivial⟩
    | cons b rest' =>
      refine ⟨hchain.1, ?_⟩
      exact ih x hchain.2 (fun c hc => hall c (by simp [hc]))

theorem dropWhile_self_of_head {p : Char → Bool} :
    ∀ (l : List Char), (∀ c, l.head? = some c → p c = false) → List.dropWhile p l = l := by
  intro l h
  cases l with
  | nil => rfl
  | cons c rest =>
    have hc := h c rfl
    simp [List.dropWhile_cons, hc]

theorem rdropWhile_factor (p : Char → Bool) (m : List Char) :
    ∃ t, m = List.rdropWhile p m ++ t := by
  obtain ⟨t, ht⟩ := List.dropWhile_suffix (l := m.reverse) p
  refine ⟨t.reverse, ?_⟩
  have : m.reverse.reverse = (t ++ List.dropWhile p m.reverse).reverse := by rw [ht]
  simpa [List.rdropWhile, List.reverse_append] using this

theorem goTrim_goTrim (s : String) : goTrim (goTrim s) = goTrim s := by
  unfold goTrim
  rw [data_mk]
  have h2 : List.rdropWhile isGoSpace (List.dropWhile isGoSpace s.data) =
      List.rdropWhile isGoSpace (List.rdropWhile isGoSpace (List.dropWhile isGoSpace s.data)) :=
    (List.rdropWhile_idempotent _ _).symm
  have h1 : List.dropWhile isGoSpace
      (List.rdropWhile isGoSpace (List.dropWhile isGoSpace s.data)) =
      List.rdropWhile isGoSpace (List.dropWhile isGoSpace s.data) := by
    apply dropWhile_self_of_head
    intro c hc
    obtain ⟨t, ht⟩ := rdropWhile_factor isGoSpace (List.dropWhile isGoSpace s.data)
    have hd : (List.dropWhile isGoSpace s.data).head? = some c := by
      rw [ht]
      cases hr : List.rdropWhile isGoSpace (List.dropWhile isGoSpace s.data) with
      | nil => rw [hr] at hc; simp at hc
      | cons a u =>
        rw [hr] at hc
        simp at hc
        simp [hc.symm]
    have := List.head?_dropWhile_not isGoSpace s.data
    rw [hd] at this
    exact this
  rw [h1, ← h2]

theorem goTrim_empty : goTrim "" = "" := rfl

theorem append2_ne_of_fwd (p x q y : String) (n : Nat)
    (hp : n < p.data.length) (hq : n < q.data.length)
    (hne : p.data[n]? ≠ q.data[n]?) : p ++ x ≠ q ++ y := by
  intro h
  apply hne
  have h0 := congrArg (fun s : String => s.data[n]?) h
  simp only [String.data_append] at h0
  rwa [List.getElem?_append_left hp, List.getElem?_append_left hq] at h0

theorem append2_ne_of_rev (x l1 l2 y m1 m2 : String) (n : Nat)
    (h1 : n < l1.data.length + l2.data.length) (h2 : n < m1.data.length + m2.data.length)
    (hne : (l2.data.reverse ++ l1.data.reverse)[n]? ≠ (m2.data.reverse ++ m1.data.reverse)[n]?) :
    x ++ l1 ++ l2 ≠ y ++ m1 ++ m2 := by
  intro h
  apply hne
  have h0 := congrArg (fun s : String => s.data.reverse[n]?) h
  simp only [String.data_append, List.reverse_append] at h0
  rw [← List.append_assoc, ← List.append_assoc] at h0
  have hb1 : n < (l2.data.reverse ++ l1.data.reverse).length := by
    simp only [List.length_append, List.length_reverse]; omega
  have hb2 : n < (m2.data.reverse ++ m1.data.reverse).length := by
    simp only [List.length_append, List.length_reverse]; omega
  rwa [List.getElem?_append_left hb1, List.getElem?_append_left hb2] at h0

theorem ok_ne_marker (x y : String) :
    x ++ " step OK" ++ "\n" ≠ "=== Step: " ++ y ++ " ===" ++ "\n" :=
  append2_ne_of_rev x " step OK" "\n" ("=== Step: " ++ y) " ===" "\n" 1
    (by decide) (by decide) (by decide)

theorem dots_ne_marker (x y : String) :
    x ++ "..." ++ "\n" ≠ "=== Step: " ++ y ++ " ===" ++ "\n" :=
  append2_ne_of_rev x "..." "\n" ("=== Step: " ++ y) " ===" "\n" 1
    (by decide) (by decide) (by decide)

theorem commit_ne_marker (x y : String) :
    "commit: " ++ x ++ "\n" ≠ "=== Step: " ++ y ++ " ===" ++ "\n" := by
  simp only [String.append_assoc]
  exact append2_ne_of_fwd "commit: " (x ++ "\n") "=== Step: " (y ++ (" ===" ++ "\n")) 0
    (by decide) (by decide) (by decide)

theorem errline_ne_marker (p x y : String) (hp : p.data ≠ [])
    (hph : p.data[0]? ≠ "=== Step: ".data[0]?) :
    p ++ x ++ "\n" ≠ "=== Step: " ++ y ++ " ===" ++ "\n" := by
  simp only [String.append_assoc]
  exact append2_ne_of_fwd p (x ++ "\n") "=== Step: " (y ++ (" ===" ++ "\n")) 0
    (List.length_pos.mpr hp) (by decide) hph

theorem marker_inj {x y : String}
    (h : "=== Step: " ++ x ++ " ===" ++ "\n" = "=== Step: " ++ y ++ " ===" ++ "\n") :
    x = y := by
  have hd := congrArg String.data h
  simp only [String.data_append, List.append_assoc] at hd
  have h1 := List.append_cancel_left hd
  exact String.ext (List.append_cancel_right h1)

theorem kind_cases (s : Step) :
    s.kind = "" ∨ s.kind = "cmd" ∨ s.kind = "file" ∨ s.kind = "script" ∨ s.kind = "k8s_deploy" := by
  unfold Step.kind
  by_cases h1 : goTrim s.cmd = "" <;> by_cases h2 : goTrim s.file = "" <;>
    by_cases h3 : goTrim s.script = "" <;> by_cases h4 : s.k8sDeploy <;>
    simp [h1, h2, h3, h4]

theorem kind_ne_iff (s : Step) : s.kind ≠ "" ↔ exactlyOneMode s := by
  unfold Step.kind exactlyOneMode
  by_cases h1 : goTrim s.cmd = "" <;> by_cases h2 : goTrim s.file = "" <;>
    by_cases h3 : goTrim s.script = "" <;> by_cases h4 : s.k8sDeploy <;>
    simp [h1, h2, h3, h4]

theorem kind_normalizeStep (i : Nat) (s : Step) : (normalizeStep i s).kind = s.kind := by
  unfold normalizeStep Step.kind
  simp [goTrim_goTrim]

theorem kind_legacy_cmd (nm c : String) (slp : Int) (h : goTrim c ≠ "") :
    (Step.mk nm (goTrim c) "" "" false slp).kind = "cmd" := by
  unfold Step.kind
  simp [goTrim_goTrim, goTrim_empty, h]

theorem runStep_valid (env : ExecEnv) (i : Nat) (s : Step) (st : RunState) (h : s.kind ≠ "") :
    runStepWithLog env i s st = (writeRaw st (env.stepOutputs i), env.stepErrs i) := by
  rcases kind_cases s with h0 | h0 | h0 | h0 | h0
  · exact absurd h0 h
  all_goals simp [runStepWithLog, h0]

theorem mem_normalizeSteps_kind :
    ∀ (l : List Step) (i0 : Nat) (s : Step), s ∈ normalizeSteps i0 l → s.kind ≠ "" := by
  intro l
  induction l with
  | nil => intro i0 s h; simp [normalizeSteps] at h
  | cons a rest ih =>
    intro i0 s h
    simp only [normalizeSteps] at h
    by_cases hk : (normalizeStep i0 a).kind = ""
    · rw [if_pos hk] at h
      rw [List.nil_append] at h
      exact ih (i0 + 1) s h
    · rw [if_neg hk] at h
      rcases List.mem_append.mp h with h1 | h1
      · rw [List.mem_singleton.mp h1]; exact hk
      · exact ih (i0 + 1) s h1

theorem mem_normalizeSteps_shape :
    ∀ (l : List Step) (i0 : Nat) (s : Step), s ∈ normalizeSteps i0 l →
      ∃ i t, t ∈ l ∧ s = normalizeStep i t := by
  intro l
  induction l with
  | nil => intro i0 s h; simp [normalizeSteps] at h
  | cons a rest ih =>
    intro i0 s h
    simp only [normalizeSteps] at h
    by_cases hk : (normalizeStep i0 a).kind = ""
    · rw [if_pos hk, List.nil_append] at h
      obtain ⟨i, t, ht, hs⟩ := ih (i0 + 1) s h
      exact ⟨i, t, List.mem_cons_of_mem a ht, hs⟩
    · rw [if_neg hk] at h
      rcases List.mem_append.mp h with h1 | h1
      · exact ⟨i0, a, List.mem_cons_self a rest, List.mem_singleton.mp h1⟩
      · obtain ⟨i, t, ht, hs⟩ := ih (i0 + 1) s h1
        exact ⟨i, t, List.mem_cons_of_mem a ht, hs⟩

theorem normalizeStep_mem :
    ∀ (l : List Step) (j i0 : Nat) (hj : j < l.length),
      (normalizeStep (i0 + j) (l.get ⟨j, hj⟩)).kind ≠ "" →
      normalizeStep (i0 + j) (l.get ⟨j, hj⟩) ∈ normalizeSteps i0 l := by
  intro l
  induction l with
  | nil => intro j i0 hj; simp at hj
  | cons a rest ih =>
    intro j i0 hj hk
    cases j with
    | zero =>
      simp only [List.get, Nat.add_zero] at hk ⊢
      simp only [normalizeSteps]
      rw [if_neg hk]
      exact List.mem_append_left _ (List.mem_singleton.mpr rfl)
    | succ j' =>
      simp only [List.get] at hk ⊢
      simp only [normalizeSteps]
      have h2 : i0 + (j' + 1) = (i0 + 1) + j' := by omega
      rw [h2] at hk ⊢
      exact List.mem_append_right _ (ih j' (i0 + 1) (Nat.lt_of_succ_lt_succ hj) hk)

theorem mem_ite_singleton {c : Prop} [Decidable c] {s st : Step}
    (h : s ∈ (if c then [st] else [])) : s = st ∧ c := by
  by_cases hc : c
  · rw [if_pos hc] at h
    exact ⟨List.mem_singleton.mp h, hc⟩
  · rw [if_neg hc] at h
    simp at h

theorem effectiveSteps_kind_ne {a : App} {s : Step} (h : s ∈ a.effectiveSteps) :
    s.kind ≠ "" := by
  unfold App.effectiveSteps at h
  by_cases hl : a.steps.length > 0
  · rw [if_pos hl] at h
    exact mem_normalizeSteps_kind _ _ _ h
  · rw [if_neg hl] at h
    rcases List.mem_append.mp h with h1 | h1
    · rcases List.mem_append.mp h1 with h2 | h2
      · obtain ⟨hs, hc⟩ := mem_ite_singleton h2
        rw [hs, kind_legacy_cmd _ _ _ hc]
        simp
      · obtain ⟨hs, hc⟩ := mem_ite_singleton h2
        rw [hs, kind_legacy_cmd _ _ _ hc]
        simp
    · obtain ⟨hs, hc⟩ := mem_ite_singleton h1
      rw [hs, kind_legacy_cmd _ _ _ hc]
      simp

theorem step_lit_name_ne (t : String) : "step-" ++ t ≠ "" := by
  intro h
  have h2 := congrArg (fun s : String => s.data[0]?) h
  simp only [String.data_append] at h2
  rw [List.getElem?_append_left (by decide)] at h2
  exact absurd h2 (by decide)

theorem normalizeStep_name_ne (i : Nat) (t : Step) : (normalizeStep i t).name ≠ "" := by
  have hn : (normalizeStep i t).name =
      if goTrim t.name = "" then "step-" ++ strconvItoa (i + 1) else goTrim t.name := rfl
  rw [hn]
  by_cases hb : goTrim t.name = ""
  · rw [if_pos hb]
    exact step_lit_name_ne _
  · rw [if_neg hb]
    exact hb

theorem effectiveSteps_name_ne {a : App} {s : Step} (h : s ∈ a.effectiveSteps) :
    s.name ≠ "" := by
  unfold App.effectiveSteps at h
  by_cases hl : a.steps.length > 0
  · rw [if_pos hl] at h
    obtain ⟨i, t, _, hs⟩ := mem_normalizeSteps_shape _ _ _ h
    rw [hs]
    exact normalizeStep_name_ne i t
  · rw [if_neg hl] at h
    rcases List.mem_append.mp h with h1 | h1
    · rcases List.mem_append.mp h1 with h2 | h2
      · rw [(mem_ite_singleton h2).1]; simp
      · rw [(mem_ite_singleton h2).1]; simp
    · rw [(mem_ite_singleton h1).1]; simp

theorem runPipeline_fst_log (env : ExecEnv) (app : App) :
    (runPipeline env app).1.log = (runPipeline env app).2.log := by
  unfold runPipeline runAfterSync
  cases env.mkdirWorkErr with
  | some e => rfl
  | none =>
    cases env.gitMarkerPresent with
    | true => cases env.pullErr with
      | some e => rfl
      | none => rfl
    | false =>
      cases env.mkdirAppErr with
      | some e => rfl
      | none => cases env.cloneErr with
        | some e => rfl
        | none => rfl

theorem runPipeline_syncOk_eq (env : ExecEnv) (app : App) (h : env.syncOk = true) :
    runPipeline env app = runAfterSync env app { writes := [], calls := [] } := by
  unfold ExecEnv.syncOk at h
  unfold runPipeline
  cases hm : env.mkdirWorkErr with
  | some e => rw [hm] at h; simp at h
  | none =>
    rw [hm] at h
    simp only [Option.isNone_none, Bool.true_and] at h
    cases hg : env.gitMarkerPresent with
    | true =>
      rw [hg] at h
      simp only [if_true] at h
      cases hp : env.pullErr with
      | some e => rw [hp] at h; simp at h
      | none => rfl
    | false =>
      rw [hg] at h
      simp at h
      cases hma : env.mkdirAppErr with
      | some e => rw [hma] at h; simp at h
      | none =>
        cases hc : env.cloneErr with
        | some e => rw [hc] at h; simp at h
        | none => rfl

theorem mem_writes_factor :
    ∀ (ws : List Write) (w : Write), w ∈ ws →
      ∃ a b, concatAll (ws.map Write.text) = a ++ w.text ++ b := by
  intro ws
  induction ws with
  | nil => intro w h; simp at h
  | cons v rest ih =>
    intro w h
    rcases List.mem_cons.mp h with h1 | h1
    · refine ⟨"", concatAll (rest.map Write.text), ?_⟩
      rw [h1]
      simp only [List.map_cons, concatAll]
      rw [str_empty_append]
    · obtain ⟨a, b, hab⟩ := ih w h1
      refine ⟨v.text ++ a, b, ?_⟩
      simp only [List.map_cons, concatAll, hab, String.append_assoc]

theorem okWrites_ok_mem (env : ExecEnv) :
    ∀ (l : List Step) (i0 : Nat) (s : Step), s ∈ l →
      ({ viaLog := true, text := s.name ++ " step OK" ++ "\n" } : Write) ∈ okWrites env i0 l := by
  intro l
  induction l with
  | nil => intro i0 s h; simp at h
  | cons a rest ih =>
    intro i0 s h
    rcases List.mem_cons.mp h with h1 | h1
    · apply List.mem_append_left
      rw [h1]
      simp [okStepWrites]
    · exact List.mem_append_right _ (ih (i0 + 1) s h1)

theorem okWrites_shape (env : ExecEnv) :
    ∀ (l : List Step) (i0 : Nat) (w : Write), w ∈ okWrites env i0 l →
      (∃ s ∈ l, w.text = "=== Step: " ++ s.name ++ " ===" ++ "\n")
      ∨ (∃ s ∈ l, w.text = s.name ++ " step OK" ++ "\n")
      ∨ (∃ x, w.text = x ++ "..." ++ "\n")
      ∨ (∃ i, i0 ≤ i ∧ i < i0 + l.length ∧ w.text = env.stepOutputs i) := by
  intro l
  induction l with
  | nil => intro i0 w h; simp [okWrites] at h
  | cons a rest ih =>
    intro i0 w h
    rcases List.mem_append.mp h with h1 | h1
    · by_cases hs : 0 < a.sleepSec
      · simp only [okStepWrites, if_pos hs] at h1
        simp only [List.append_assoc, List.cons_append, List.nil_append, List.mem_cons,
          List.not_mem_nil, or_false] at h1
        rcases h1 with h2 | h2 | h2 | h2
        · exact Or.inl ⟨a, List.mem_cons_self a rest, by rw [h2]⟩
        · exact Or.inr (Or.inr (Or.inr ⟨i0, Nat.le_refl i0, by simp, by rw [h2]⟩))
        · exact Or.inr (Or.inl ⟨a, List.mem_cons_self a rest, by rw [h2]⟩)
        · exact Or.inr (Or.inr (Or.inl ⟨"Sleeping " ++ toString a.sleepSec ++ "s after " ++ a.name, by rw [h2]⟩))
      · simp only [okStepWrites, if_neg hs] at h1
        simp only [List.append_nil, List.mem_cons, List.not_mem_nil, or_false] at h1
        rcases h1 with h2 | h2 | h2
        · exact Or.inl ⟨a, List.mem_cons_self a rest, by rw [h2]⟩
        · exact Or.inr (Or.inr (Or.inr ⟨i0, Nat.le_refl i0, by simp, by rw [h2]⟩))
        · exact Or.inr (Or.inl ⟨a, List.mem_cons_self a rest, by rw [h2]⟩)
    · rcases ih (i0 + 1) w h1 with h2 | h2 | h2 | h2
      · obtain ⟨s, hs, ht⟩ := h2
        exact Or.inl ⟨s, List.mem_cons_of_mem a hs, ht⟩
      · obtain ⟨s, hs, ht⟩ := h2
        exact Or.inr (Or.inl ⟨s, List.mem_cons_of_mem a hs, ht⟩)
      · exact Or.inr (Or.inr (Or.inl h2))
      · obtain ⟨i, hi1, hi2, ht⟩ := h2
        refine Or.inr (Or.inr (Or.inr ⟨i, by omega, by simp at hi2 ⊢; omega, ht⟩))

theorem runLoop_fail (env : ExecEnv) (e : String) :
    ∀ (l : List Step) (k i0 : Nat) (st : RunState),
      (∀ s ∈ l, s.kind ≠ "") →
      ∀ (hk : k < l.length),
      (∀ m, m < k → env.stepErrs (i0 + m) = none) →
      env.stepErrs (i0 + k) = some e →
      (runLoop env l i0 st).1 = false ∧
      (runLoop env l i0 st).2.writes =
        st.writes ++ (okWrites env i0 (l.take k)
        ++ [{ viaLog := true, text := "=== Step: " ++ (l.get ⟨k, hk⟩).name ++ " ===" ++ "\n" },
            { viaLog := false, text := env.stepOutputs (i0 + k) },
            { viaLog := true, text := (l.get ⟨k, hk⟩).name ++ " step failed: " ++ e ++ "\n" }]) := by
  intro l
  induction l with
  | nil => intro k i0 st _ hk; simp at hk
  | cons a rest ih =>
    intro k i0 st hv hk hprev hfail
    cases k with
    | zero =>
      have hfl : env.stepErrs i0 = some e := by simpa using hfail
      simp only [runLoop, runStep_valid env i0 a _ (hv a (List.mem_cons_self a rest)), hfl]
      constructor
      · trivial
      · simp [appendLog, notify, writeRaw, okWrites, List.get]
    | succ k' =>
      have h0 : env.stepErrs i0 = none := by simpa using hprev 0 (Nat.succ_pos k')
      simp only [runLoop, runStep_valid env i0 a _ (hv a (List.mem_cons_self a rest)), h0]
      have hk' : k' < rest.length := Nat.lt_of_succ_lt_succ hk
      have hprev' : ∀ m, m < k' → env.stepErrs (i0 + 1 + m) = none := by
        intro m hm
        have := hprev (m + 1) (by omega)
        rwa [show i0 + (m + 1) = i0 + 1 + m by omega] at this
      have hfail' : env.stepErrs (i0 + 1 + k') = some e := by
        rwa [show i0 + (k' + 1) = i0 + 1 + k' by omega] at hfail
      by_cases hs : 0 < a.sleepSec
      · simp only [if_pos hs]
        obtain ⟨ih1, ih2⟩ := ih k' (i0 + 1)
          (notify (appendLog (appendLog (writeRaw (appendLog st ("=== Step: " ++ a.name ++ " ===")) (env.stepOutputs i0)) (a.name ++ " step OK")) ("Sleeping " ++ toString a.sleepSec ++ "s after " ++ a.name ++ "...")))
          (fun s hsm => hv s (List.mem_cons_of_mem a hsm)) hk' hprev' hfail'
        refine ⟨ih1, ?_⟩
        rw [ih2]
        simp [appendLog, notify, writeRaw, okWrites, okStepWrites, if_pos hs, List.get]
        exact congrArg env.stepOutputs (by omega)
      · simp only [if_neg hs]
        obtain ⟨ih1, ih2⟩ := ih k' (i0 + 1)
          (appendLog (writeRaw (appendLog st ("=== Step: " ++ a.name ++ " ===")) (env.stepOutputs i0)) (a.name ++ " step OK"))
          (fun s hsm => hv s (List.mem_cons_of_mem a hsm)) hk' hprev' hfail'
        refine ⟨ih1, ?_⟩
        rw [ih2]
        simp [appendLog, notify, writeRaw, okWrites, okStepWrites, if_neg hs, List.get]
        exact congrArg env.stepOutputs (by omega)

theorem str_append_empty (s : String) : s ++ "" = s := String.ext (by simp)

theorem concatAll_snoc (l : List String) (x : String) :
    concatAll (l ++ [x]) = concatAll l ++ x := by
  rw [concatAll_append]
  simp [concatAll, str_append_empty]

theorem writes_snoc_log (st : RunState) (w : Write) :
    concatAll ((st.writes ++ [w]).map Write.text) = st.log ++ w.text := by
  rw [List.map_append]
  simp only [List.map_cons, List.map_nil]
  rw [concatAll_snoc]
  rfl

theorem goodState_init : GoodState { writes := [], calls := [] } := by
  refine ⟨trivial, ?_, ?_⟩
  · intro c hc; simp at hc
  · intro m hm; simp at hm

theorem good_appendLog {st : RunState} (hg : GoodState st) (line : String) :
    GoodState (appendLog st line) := by
  obtain ⟨h1, h2, h3⟩ := hg
  have hw : (appendLog st line).writes = st.writes ++ [{ viaLog := true, text := line ++ "\n" }] := rfl
  have hc : (appendLog st line).calls = st.calls ++ [st.log ++ (line ++ "\n")] := by
    show st.calls ++ [concatAll ((st.writes ++ [Write.mk true (line ++ "\n")]).map Write.text)] = _
    rw [writes_snoc_log]
  have hl : (appendLog st line).log = st.log ++ (line ++ "\n") := by
    show concatAll ((st.writes ++ [Write.mk true (line ++ "\n")]).map Write.text) = _
    rw [writes_snoc_log]
  refine ⟨?_, ?_, ?_⟩
  · rw [hc]
    exact prefixChain_snoc _ _ h1 (fun c hcall => strLe_trans (h2 c hcall) (strLe_append _ _))
  · intro c hcall
    rw [hc] at hcall
    rw [hl]
    rcases List.mem_append.mp hcall with h4 | h4
    · exact strLe_trans (h2 c h4) (strLe_append _ _)
    · rw [List.mem_singleton.mp h4]
      exact strLe_refl _
  · intro m hm hvia
    have hm2 : m < st.writes.length + 1 := by
      have := hm
      rw [hw] at this
      simpa using this
    rw [hc]
    by_cases hlt : m < st.writes.length
    · have hget : ((appendLog st line).writes.get ⟨m, hm⟩) = st.writes.get ⟨m, hlt⟩ := by
        simp only [List.get_eq_getElem, hw]
        exact List.getElem_append_left hlt
      rw [hget] at hvia
      have htake : (appendLog st line).writes.take (m + 1) = st.writes.take (m + 1) := by
        rw [hw, List.take_append_eq_append_take, Nat.sub_eq_zero_of_le hlt, List.take_zero,
          List.append_nil]
      rw [htake]
      exact List.mem_append_left _ (h3 m hlt hvia)
    · have hme : m = st.writes.length := by omega
      have htake : (appendLog st line).writes.take (m + 1) =
          st.writes ++ [{ viaLog := true, text := line ++ "\n" }] := by
        rw [hw]
        apply List.take_of_length_le
        simp [hme]
      rw [htake, writes_snoc_log]
      exact List.mem_append_right _ (List.mem_singleton.mpr rfl)

theorem good_notify {st : RunState} (hg : GoodState st) : GoodState (notify st) := by
  obtain ⟨h1, h2, h3⟩ := hg
  refine ⟨?_, ?_, ?_⟩
  · exact prefixChain_snoc _ _ h1 (fun c hc => h2 c hc)
  · intro c hc
    rcases List.mem_append.mp hc with h4 | h4
    · exact h2 c h4
    · rw [List.mem_singleton.mp h4]
      exact strLe_refl _
  · intro m hm hvia
    exact List.mem_append_left _ (h3 m hm hvia)

theorem good_writeRaw {st : RunState} (hg : GoodState st) (out : String) :
    GoodState (writeRaw st out) := by
  obtain ⟨h1, h2, h3⟩ := hg
  have hw : (writeRaw st out).writes = st.writes ++ [{ viaLog := false, text := out }] := rfl
  have hl : (writeRaw st out).log = st.log ++ out := by
    show concatAll ((st.writes ++ [Write.mk false out]).map Write.text) = _
    rw [writes_snoc_log]
  refine ⟨h1, ?_, ?_⟩
  · intro c hc
    rw [hl]
    exact strLe_trans (h2 c hc) (strLe_append _ _)
  · intro m hm hvia
    have hm2 : m < st.writes.length + 1 := by
      have := hm
      rw [hw] at this
      simpa using this
    by_cases hlt : m < st.writes.length
    · have hget : ((writeRaw st out).writes.get ⟨m, hm⟩) = st.writes.get ⟨m, hlt⟩ := by
        simp only [List.get_eq_getElem, hw]
        exact List.getElem_append_left hlt
      rw [hget] at hvia
      have htake : (writeRaw st out).writes.take (m + 1) = st.writes.take (m + 1) := by
        rw [hw, List.take_append_eq_append_take, Nat.sub_eq_zero_of_le hlt, List.take_zero,
          List.append_nil]
      rw [htake]
      exact h3 m hlt hvia
    · have hme : m = st.writes.length := by omega
      have hget : ((writeRaw st out).writes.get ⟨m, hm⟩) = { viaLog := false, text := out } := by
        simp only [List.get_eq_getElem, hw]
        exact List.getElem_concat_length _ _ _ hme _
      rw [hget] at hvia
      cases hvia

theorem runStep_invalid (env : ExecEnv) (i : Nat) (s : Step) (st : RunState)
    (h : s.kind = "") :
    runStepWithLog env i s st = (st, some "invalid step execution mode") := by
  unfold runStepWithLog
  rw [h]
  rfl

theorem good_runStep {st : RunState} (hg : GoodState st) (env : ExecEnv) (i : Nat) (s : Step) :
    GoodState (runStepWithLog env i s st).1 := by
  rcases kind_cases s with h0 | h0 | h0 | h0 | h0
  · rw [runStep_invalid env i s st h0]
    exact hg
  all_goals rw [runStep_valid env i s st (by rw [h0]; simp)]
  all_goals exact good_writeRaw hg _

theorem good_runLoop (env : ExecEnv) :
    ∀ (l : List Step) (i : Nat) (st : RunState), GoodState st → GoodState (runLoop env l i st).2 := by
  intro l
  induction l with
  | nil => intro i st hg; exact good_appendLog hg _
  | cons a rest ih =>
    intro i st hg
    simp only [runLoop]
    rcases hr : runStepWithLog env i a (appendLog st ("=== Step: " ++ a.name ++ " ===")) with ⟨st2, err⟩
    have hst2 : GoodState st2 := by
      have hgs := good_runStep (good_appendLog hg ("=== Step: " ++ a.name ++ " ===")) env i a
      rw [hr] at hgs
      exact hgs
    cases err with
    | some e =>
      exact good_appendLog (good_notify hst2) _
    | none =>
      by_cases hs : 0 < a.sleepSec
      · simp only [if_pos hs]
        exact ih (i + 1) _ (good_notify (good_appendLog (good_appendLog hst2 _) _))
      · simp only [if_neg hs]
        exact ih (i + 1) _ (good_appendLog hst2 _)

theorem good_runPipeline (env : ExecEnv) (app : App) : GoodState (runPipeline env app).2 := by
  unfold runPipeline runAfterSync
  cases env.mkdirWorkErr with
  | some e => exact good_appendLog goodState_init _
  | none =>
    cases env.gitMarkerPresent with
    | true =>
      cases env.pullErr with
      | some e => exact good_appendLog goodState_init _
      | none => exact good_runLoop env _ 0 _ (good_appendLog goodState_init _)
    | false =>
      cases env.mkdirAppErr with
      | some e => exact good_appendLog goodState_init _
      | none =>
        cases env.cloneErr with
        | some e => exact good_appendLog goodState_init _
        | none => exact good_runLoop env _ 0 _ (good_appendLog goodState_init _)

theorem mem_take_succ {s : Step} {l : List Step} {k : Nat} (h : s ∈ l.take k) :
    s ∈ l.take (k + 1) := by
  have h1 : l.take k = (l.take (k + 1)).take k := by
    rw [List.take_take]
    congr 1
    omega
  rw [h1] at h
  exact List.take_subset _ _ h

theorem get_mem_take (l : List Step) (k : Nat) (hk : k < l.length) :
    l.get ⟨k, hk⟩ ∈ l.take (k + 1) := by
  have h1 : k < (l.take (k + 1)).length := by
    simp [List.length_take]
    omega
  have h2 : (l.take (k + 1)).get ⟨k, h1⟩ = l.get ⟨k, hk⟩ := by
    simp [List.get_eq_getElem, List.getElem_take]
  rw [← h2]
  exact List.get_mem _ _ _

/-- C1.  For every app whose effective step list has `n ≥ 2` steps, if the
local run's source sync succeeds, steps `0 .. k-1` succeed and step `k`
fails (0-based, with at least one step after `k`), then the run fails, the
log contains every earlier step's OK marker and step `k`'s failure marker,
and the boundary marker of no step after `k` is ever written to the log
buffer.  The final three hypotheses rule out marker injection through
coinciding step names, subprocess output, or the failure line itself. -/
theorem runPipeline_midstep_failure (env : ExecEnv) (app : App) (k : Nat) (e : String)
    (hsync : env.syncOk = true)
    (hk : k + 1 < app.effectiveSteps.length)
    (hprev : ∀ i, i < k → env.stepErrs i = none)
    (hfail : env.stepErrs k = some e)
    (hnames : ∀ sj ∈ app.effectiveSteps.drop (k + 1), ∀ si ∈ app.effectiveSteps.take (k + 1),
        sj.name ≠ si.name)
    (houts : ∀ sj ∈ app.effectiveSteps.drop (k + 1), ∀ i, i ≤ k →
        env.stepOutputs i ≠ "=== Step: " ++ sj.name ++ " ===" ++ "\n")
    (hfailmark : ∀ sj ∈ app.effectiveSteps.drop (k + 1),
        (app.effectiveSteps.get ⟨k, Nat.lt_of_succ_lt hk⟩).name ++ " step failed: " ++ e ++ "\n"
          ≠ "=== Step: " ++ sj.name ++ " ===" ++ "\n") :
    (runPipeline env app).1.success = false
    ∧ (∀ si ∈ app.effectiveSteps.take k, ∃ a b,
        (runPipeline env app).1.log = a ++ (si.name ++ " step OK" ++ "\n") ++ b)
    ∧ (∃ a b, (runPipeline env app).1.log =
        a ++ ((app.effectiveSteps.get ⟨k, Nat.lt_of_succ_lt hk⟩).name
          ++ " step failed: " ++ e ++ "\n") ++ b)
    ∧ (∀ sj ∈ app.effectiveSteps.drop (k + 1),
        ("=== Step: " ++ sj.name ++ " ===" ++ "\n")
          ∉ ((runPipeline env app).2.writes.map Write.text)) := by
  have hkk : k < app.effectiveSteps.length := Nat.lt_of_succ_lt hk
  have hv : ∀ s ∈ app.effectiveSteps, s.kind ≠ "" := fun s hs => effectiveSteps_kind_ne hs
  have hprev0 : ∀ m, m < k → env.stepErrs (0 + m) = none := by
    intro m hm
    simpa using hprev m hm
  have hfail0 : env.stepErrs (0 + k) = some e := by simpa using hfail
  have key := runLoop_fail env e app.effectiveSteps k 0
    (appendLog { writes := [], calls := [] } ("commit: " ++ goTrim env.commitOutput))
    hv hkk hprev0 hfail0
  have hpipe : runPipeline env app =
      runAfterSync env app { writes := [], calls := [] } := runPipeline_syncOk_eq env app hsync
  have hw : (runPipeline env app).2.writes =
      Write.mk true ("commit: " ++ goTrim env.commitOutput ++ "\n")
        :: (okWrites env 0 (app.effectiveSteps.take k)
          ++ [Write.mk true ("=== Step: "
                ++ (app.effectiveSteps.get ⟨k, hkk⟩).name ++ " ===" ++ "\n"),
              Write.mk false (env.stepOutputs (0 + k)),
              Write.mk true ((app.effectiveSteps.get ⟨k, hkk⟩).name
                ++ " step failed: " ++ e ++ "\n")]) := by
    rw [hpipe]
    show (runLoop env app.effectiveSteps 0 _).2.writes = _
    rw [key.2]
    simp [appendLog]
  have hlog : (runPipeline env app).1.log =
      concatAll ((runPipeline env app).2.writes.map Write.text) := by
    rw [runPipeline_fst_log]
    rfl
  refine ⟨?_, ?_, ?_, ?_⟩
  · rw [hpipe]
    show (runLoop env app.effectiveSteps 0 _).1 = false
    exact key.1
  · intro si hsi
    have hmem : Write.mk true (si.name ++ " step OK" ++ "\n")
        ∈ (runPipeline env app).2.writes := by
      rw [hw]
      exact List.mem_cons_of_mem _
        (List.mem_append_left _ (okWrites_ok_mem env _ 0 si hsi))
    obtain ⟨a, b, hab⟩ := mem_writes_factor _ _ hmem
    exact ⟨a, b, by rw [hlog, hab]⟩
  · have hmem : Write.mk true ((app.effectiveSteps.get ⟨k, hkk⟩).name
        ++ " step failed: " ++ e ++ "\n") ∈ (runPipeline env app).2.writes := by
      rw [hw]
      refine List.mem_cons_of_mem _ (List.mem_append_right _ ?_)
      simp
    obtain ⟨a, b, hab⟩ := mem_writes_factor _ _ hmem
    exact ⟨a, b, by rw [hlog, hab]⟩
  · intro sj hsj hmem
    rw [hw] at hmem
    simp only [List.map_cons, List.map_append, List.mem_cons, List.mem_append] at hmem
    rcases hmem with h1 | h1
    · exact absurd h1.symm (commit_ne_marker (goTrim env.commitOutput) sj.name)
    rcases h1 with h1 | h1
    · obtain ⟨w, hwmem, hwt⟩ := List.mem_map.mp h1
      rcases okWrites_shape env _ 0 w hwmem with h2 | h2 | h2 | h2
      · obtain ⟨s, hsmem, hst⟩ := h2
        rw [hst] at hwt
        have := marker_inj hwt
        exact absurd this.symm (hnames sj hsj s (mem_take_succ hsmem))
      · obtain ⟨s, hsmem, hst⟩ := h2
        rw [hst] at hwt
        exact absurd hwt (ok_ne_marker s.name sj.name)
      · obtain ⟨x, hst⟩ := h2
        rw [hst] at hwt
        exact absurd hwt (dots_ne_marker x sj.name)
      · obtain ⟨i, hi0, hilen, hst⟩ := h2
        rw [hst] at hwt
        have hik : i ≤ k := by
          have := hilen
          simp [List.length_take] at this
          omega
        exact absurd hwt (houts sj hsj i hik)
    simp only [List.map_cons, List.map_nil, List.mem_cons, List.not_mem_nil, or_false] at h1
    rcases h1 with h1 | h1 | h1
    · have := marker_inj h1.symm
      exact absurd this.symm
        (hnames sj hsj (app.effectiveSteps.get ⟨k, hkk⟩) (get_mem_take _ k hkk))
    · rw [Nat.zero_add] at h1
      exact absurd h1.symm (houts sj hsj k (Nat.le_refl k))
    · exact absurd h1.symm (hfailmark sj hsj)

theorem runPipeline_midstep_failure_witness :
    (runPipeline wEnvFail1 wApp3).1.success = false :=
  (runPipeline_midstep_failure wEnvFail1 wApp3 1 "exit status 2" (by decide) (by decide)
    (by decide) (by decide) (by decide) (by decide) (by decide)).1

/-- C4.  If the source-sync phase of a local run fails (work-dir creation,
app-dir creation, clone, or pull), the run fails and no step-boundary marker
for any step name is ever written to the log buffer. -/
theorem runPipeline_sync_failure_no_steps (env : ExecEnv) (app : App)
    (h : env.syncFailed = true) :
    (runPipeline env app).1.success = false
    ∧ ∀ nm : String, ("=== Step: " ++ nm ++ " ===" ++ "\n")
        ∉ ((runPipeline env app).2.writes.map Write.text) := by
  have hok : env.syncOk = false := by
    revert h
    unfold ExecEnv.syncFailed
    cases env.syncOk <;> simp
  unfold ExecEnv.syncOk at hok
  unfold runPipeline
  cases hm : env.mkdirWorkErr with
  | some e =>
    refine ⟨rfl, ?_⟩
    intro nm hmem
    simp only [appendLog, List.nil_append, List.map_cons, List.map_nil, List.mem_cons,
      List.not_mem_nil, or_false] at hmem
    exact absurd hmem.symm (errline_ne_marker "mkdir work dir: " e nm (by decide) (by decide))
  | none =>
    rw [hm] at hok
    simp only [Option.isNone_none, Bool.true_and] at hok
    cases hg : env.gitMarkerPresent with
    | true =>
      rw [hg] at hok
      simp only [if_true] at hok
      cases hp : env.pullErr with
      | none => rw [hp] at hok; simp at hok
      | some e =>
        refine ⟨rfl, ?_⟩
        intro nm hmem
        simp [appendLog] at hmem
        exact absurd hmem.symm (errline_ne_marker "git pull: " e nm (by decide) (by decide))
    | false =>
      rw [hg] at hok
      simp at hok
      cases hma : env.mkdirAppErr with
      | some e =>
        refine ⟨rfl, ?_⟩
        intro nm hmem
        simp [appendLog] at hmem
        exact absurd hmem.symm (errline_ne_marker "mkdir app dir: " e nm (by decide) (by decide))
      | none =>
        rw [hma] at hok
        cases hc : env.cloneErr with
        | none => rw [hc] at hok; simp at hok
        | some e =>
          refine ⟨rfl, ?_⟩
          intro nm hmem
          simp [appendLog] at hmem
          exact absurd hmem.symm (errline_ne_marker "git clone: " e nm (by decide) (by decide))

theorem runPipeline_sync_failure_no_steps_witness :
    (runPipeline wEnvSyncFail wApp3).1.success = false
    ∧ ∀ nm : String, ("=== Step: " ++ nm ++ " ===" ++ "\n")
        ∉ ((runPipeline wEnvSyncFail wApp3).2.writes.map Write.text) :=
  runPipeline_sync_failure_no_steps wEnvSyncFail wApp3 (by decide)

/-- C7.  In every local run, the strings passed to the log-update callback
form a chain of right-extensions, the final log extends every string passed
to the callback, and every `appendLog` write (step start, step OK or
failure, sleep line, and the sync/commit/completion lines) put the log as
of that write into the callback sequence. -/
theorem runPipeline_log_monotone (env : ExecEnv) (app : App) :
    PrefixChain (runPipeline env app).2.calls
    ∧ (∀ c ∈ (runPipeline env app).2.calls, strLe c (runPipeline env app).1.log)
    ∧ (∀ m (hm : m < (runPipeline env app).2.writes.length),
        ((runPipeline env app).2.writes.get ⟨m, hm⟩).viaLog = true →
        concatAll (((runPipeline env app).2.writes.take (m + 1)).map Write.text)
          ∈ (runPipeline env app).2.calls) := by
  obtain ⟨h1, h2, h3⟩ := good_runPipeline env app
  refine ⟨h1, ?_, h3⟩
  intro c hc
  rw [runPipeline_fst_log]
  exact h2 c hc

theorem runPipeline_log_monotone_witness :
    PrefixChain (runPipeline wEnvFail1 wApp3).2.calls :=
  (runPipeline_log_monotone wEnvFail1 wApp3).1

/-- C2.  For an explicit step list, the entry at 0-based index `idx` appears
(normalized) in `EffectiveSteps` iff exactly one of its four mode fields is
set after trimming; and a blank name is replaced by `step-<idx+1>`. -/
theorem effectiveSteps_explicit_characterization (app : App) (h : app.steps ≠ [])
    (idx : Nat) (hidx : idx < app.steps.length) :
    (exactlyOneMode (app.steps.get ⟨idx, hidx⟩) ↔
      normalizeStep idx (app.steps.get ⟨idx, hidx⟩) ∈ app.effectiveSteps)
    ∧ (goTrim (app.steps.get ⟨idx, hidx⟩).name = "" →
      (normalizeStep idx (app.steps.get ⟨idx, hidx⟩)).name = "step-" ++ strconvItoa (idx + 1)) := by
  have hlen : app.steps.length > 0 := List.length_pos.mpr h
  have heff : app.effectiveSteps = normalizeSteps 0 app.steps := by
    unfold App.effectiveSteps
    rw [if_pos hlen]
  refine ⟨⟨?_, ?_⟩, ?_⟩
  · intro hmode
    rw [heff]
    have hkind : (normalizeStep idx (app.steps.get ⟨idx, hidx⟩)).kind ≠ "" := by
      rw [kind_normalizeStep]
      exact (kind_ne_iff _).mpr hmode
    have h2 := normalizeStep_mem app.steps idx 0 hidx (by rw [Nat.zero_add]; exact hkind)
    rwa [Nat.zero_add] at h2
  · intro hmem
    rw [heff] at hmem
    have hkind := mem_normalizeSteps_kind _ _ _ hmem
    rw [kind_normalizeStep] at hkind
    exact (kind_ne_iff _).mp hkind
  · intro hblank
    have hname : (normalizeStep idx (app.steps.get ⟨idx, hidx⟩)).name =
        if goTrim (app.steps.get ⟨idx, hidx⟩).name = "" then "step-" ++ strconvItoa (idx + 1)
        else goTrim (app.steps.get ⟨idx, hidx⟩).name := rfl
    rw [hname, if_pos hblank]

theorem effectiveSteps_explicit_characterization_witness :
    (exactlyOneMode (wApp3.steps.get ⟨0, by decide⟩) ↔
      normalizeStep 0 (wApp3.steps.get ⟨0, by decide⟩) ∈ wApp3.effectiveSteps)
    ∧ (goTrim (wApp3.steps.get ⟨0, by decide⟩).name = "" →
      (normalizeStep 0 (wApp3.steps.get ⟨0, by decide⟩)).name = "step-" ++ strconvItoa (0 + 1)) :=
  effectiveSteps_explicit_characterization wApp3 (by decide) 0 (by decide)

/-- C3.  With an empty explicit step list, `EffectiveSteps` yields up to
three cmd-kind steps named exactly `test`, `build`, `deploy` in that order,
each built from the corresponding legacy command (trimmed) and sleep field,
and omitted exactly when the legacy command is blank after trimming. -/
theorem effectiveSteps_legacy_characterization (app : App) (h : app.steps = []) :
    app.effectiveSteps.map Step.name =
      (if goTrim app.testCmd = "" then [] else ["test"])
      ++ (if goTrim app.buildCmd = "" then [] else ["build"])
      ++ (if goTrim app.deployCmd = "" then [] else ["deploy"])
    ∧ (∀ s ∈ app.effectiveSteps, s.kind = "cmd")
    ∧ (goTrim app.testCmd ≠ "" →
        Step.mk "test" (goTrim app.testCmd) "" "" false app.testSleepSec ∈ app.effectiveSteps)
    ∧ (goTrim app.buildCmd ≠ "" →
        Step.mk "build" (goTrim app.buildCmd) "" "" false app.buildSleepSec ∈ app.effectiveSteps)
    ∧ (goTrim app.deployCmd ≠ "" →
        Step.mk "deploy" (goTrim app.deployCmd) "" "" false app.deploySleepSec ∈ app.effectiveSteps) := by
  have hlen : ¬ app.steps.length > 0 := by rw [h]; simp
  have heff : app.effectiveSteps =
      (if goTrim app.testCmd ≠ "" then
        [Step.mk "test" (goTrim app.testCmd) "" "" false app.testSleepSec] else [])
      ++ (if goTrim app.buildCmd ≠ "" then
        [Step.mk "build" (goTrim app.buildCmd) "" "" false app.buildSleepSec] else [])
      ++ (if goTrim app.deployCmd ≠ "" then
        [Step.mk "deploy" (goTrim app.deployCmd) "" "" false app.deploySleepSec] else []) := by
    unfold App.effectiveSteps
    rw [if_neg hlen]
  refine ⟨?_, ?_, ?_, ?_, ?_⟩
  · rw [heff]
    by_cases ht : goTrim app.testCmd = "" <;> by_cases hb : goTrim app.buildCmd = "" <;>
      by_cases hd : goTrim app.deployCmd = "" <;> simp [ht, hb, hd]
  · intro s hs
    rw [heff] at hs
    rcases List.mem_append.mp hs with h1 | h1
    · rcases List.mem_append.mp h1 with h2 | h2
      · obtain ⟨hset, hc⟩ := mem_ite_singleton h2
        rw [hset]
        exact kind_legacy_cmd _ _ _ hc
      · obtain ⟨hset, hc⟩ := mem_ite_singleton h2
        rw [hset]
        exact kind_legacy_cmd _ _ _ hc
    · obtain ⟨hset, hc⟩ := mem_ite_singleton h1
      rw [hset]
      exact kind_legacy_cmd _ _ _ hc
  · intro hcond
    rw [heff]
    refine List.mem_append_left _ (List.mem_append_left _ ?_)
    rw [if_pos hcond]
    exact List.mem_singleton.mpr rfl
  · intro hcond
    rw [heff]
    refine List.mem_append_left _ (List.mem_append_right _ ?_)
    rw [if_pos hcond]
    exact List.mem_singleton.mpr rfl
  · intro hcond
    rw [heff]
    refine List.mem_append_right _ ?_
    rw [if_pos hcond]
    exact List.mem_singleton.mpr rfl

theorem effectiveSteps_legacy_characterization_witness :
    wAppLegacy.effectiveSteps.map Step.name =
      (if goTrim wAppLegacy.testCmd = "" then [] else ["test"])
      ++ (if goTrim wAppLegacy.buildCmd = "" then [] else ["build"])
      ++ (if goTrim wAppLegacy.deployCmd = "" then [] else ["deploy"])
    ∧ (∀ s ∈ wAppLegacy.effectiveSteps, s.kind = "cmd")
    ∧ (goTrim wAppLegacy.testCmd ≠ "" →
        Step.mk "test" (goTrim wAppLegacy.testCmd) "" "" false wAppLegacy.testSleepSec
          ∈ wAppLegacy.effectiveSteps)
    ∧ (goTrim wAppLegacy.buildCmd ≠ "" →
        Step.mk "build" (goTrim wAppLegacy.buildCmd) "" "" false wAppLegacy.buildSleepSec
          ∈ wAppLegacy.effectiveSteps)
    ∧ (goTrim wAppLegacy.deployCmd ≠ "" →
        Step.mk "deploy" (goTrim wAppLegacy.deployCmd) "" "" false wAppLegacy.deploySleepSec
          ∈ wAppLegacy.effectiveSteps) :=
  effectiveSteps_legacy_characterization wAppLegacy (by decide)

/-- C10.  Every step returned by `EffectiveSteps` has one of the four valid
kinds and a non-empty name, so the local dispatch always takes a valid
branch — the `"invalid step execution mode"` error is unreachable for such
steps. -/
theorem effectiveSteps_steps_always_valid (app : App) (s : Step) (h : s ∈ app.effectiveSteps) :
    (s.kind = "cmd" ∨ s.kind = "file" ∨ s.kind = "script" ∨ s.kind = "k8s_deploy")
    ∧ s.name ≠ ""
    ∧ ∀ (env : ExecEnv) (i : Nat) (st : RunState),
        runStepWithLog env i s st = (writeRaw st (env.stepOutputs i), env.stepErrs i) := by
  have hne := effectiveSteps_kind_ne h
  refine ⟨?_, effectiveSteps_name_ne h, ?_⟩
  · rcases kind_cases s with h0 | h0 | h0 | h0 | h0
    · exact absurd h0 hne
    · exact Or.inl h0
    · exact Or.inr (Or.inl h0)
    · exact Or.inr (Or.inr (Or.inl h0))
    · exact Or.inr (Or.inr (Or.inr h0))
  · intro env i st
    exact runStep_valid env i s st hne

theorem effectiveSteps_steps_always_valid_witness :
    ((Step.mk "alpha" "make a" "" "" false 0).kind = "cmd"
      ∨ (Step.mk "alpha" "make a" "" "" false 0).kind = "file"
      ∨ (Step.mk "alpha" "make a" "" "" false 0).kind = "script"
      ∨ (Step.mk "alpha" "make a" "" "" false 0).kind = "k8s_deploy")
    ∧ (Step.mk "alpha" "make a" "" "" false 0).name ≠ ""
    ∧ ∀ (env : ExecEnv) (i : Nat) (st : RunState),
        runStepWithLog env i (Step.mk "alpha" "make a" "" "" false 0) st
          = (writeRaw st (env.stepOutputs i), env.stepErrs i) :=
  effectiveSteps_steps_always_valid wApp3 (Step.mk "alpha" "make a" "" "" false 0) (by decide)

theorem goTrim_ne_empty_of_head (s : String) (c : Char) (hc : s.data.head? = some c)
    (hcs : isGoSpace c = false) : goTrim s ≠ "" := by
  intro h
  have hdata : List.rdropWhile isGoSpace (List.dropWhile isGoSpace s.data) = [] :=
    congrArg String.data h
  have hdw : List.dropWhile isGoSpace s.data = s.data := by
    apply dropWhile_self_of_head
    intro c' hc'
    rw [hc] at hc'
    rw [(Option.some.inj hc').symm]
    exact hcs
  rw [hdw] at hdata
  rw [List.rdropWhile_eq_nil_iff] at hdata
  cases hl : s.data with
  | nil => rw [hl] at hc; simp at hc
  | cons a t =>
    have ha : a = c := by rw [hl] at hc; simpa using hc
    have hmem := hdata a (by rw [hl]; exact List.mem_cons_self _ _)
    rw [ha] at hmem
    rw [hmem] at hcs
    cases hcs

theorem buildK8sJobScript_head (app : App) :
    (buildK8sJobScript app).data.head? = some 's' := by
  unfold buildK8sJobScript scriptPreamble
  show (("set -eu" ++ "\n") ++ _).data.head? = some 's'
  rw [String.data_append, String.data_append]
  simp

theorem buildK8sJobScript_trim_ne (app : App) : goTrim (buildK8sJobScript app) ≠ "" :=
  goTrim_ne_empty_of_head _ 's' (buildK8sJobScript_head app) (by decide)

/-- C5.  When a cluster-job precondition fails (blank namespace, service
account, or runner image after trimming, or a blank rendered script), the
run fails immediately and no cluster object is created. -/
theorem k8sJob_precondition_failure (env : K8sEnv) (runID : Int) (app : App)
    (h : goTrim app.k8sNamespace = "" ∨ goTrim app.k8sServiceAccount = ""
      ∨ goTrim app.k8sRunnerImage = "" ∨ goTrim (buildK8sJobScript app) = "") :
    (runAppAsK8sJob env runID app).result.success = false
    ∧ (runAppAsK8sJob env runID app).actions = [] := by
  simp only [runAppAsK8sJob]
  by_cases h1 : goTrim app.k8sNamespace = ""
  · rw [if_pos h1]
    exact ⟨rfl, rfl⟩
  · rw [if_neg h1]
    by_cases h2 : goTrim app.k8sServiceAccount = ""
    · rw [if_pos h2]
      exact ⟨rfl, rfl⟩
    · rw [if_neg h2]
      by_cases h3 : goTrim app.k8sRunnerImage = ""
      · rw [if_pos h3]
        exact ⟨rfl, rfl⟩
      · rw [if_neg h3]
        have h4 : goTrim (buildK8sJobScript app) = "" := by tauto
        rw [if_pos h4]
        exact ⟨rfl, rfl⟩

theorem k8sJob_precondition_failure_witness :
    (runAppAsK8sJob wK8sEnvTimeout 7 baseApp).result.success = false
    ∧ (runAppAsK8sJob wK8sEnvTimeout 7 baseApp).actions = [] :=
  k8sJob_precondition_failure wK8sEnvTimeout 7 baseApp (Or.inl (by decide))

theorem k8s_actions_last (env2 : K8sEnv) (runID : Int) (app : App)
    (hns : goTrim app.k8sNamespace ≠ "") (hsa : goTrim app.k8sServiceAccount ≠ "")
    (himg : goTrim app.k8sRunnerImage ≠ "") (hsec2 : env2.secretApplyErr = none) :
    (runAppAsK8sJob env2 runID app).actions.getLast? =
      some (K8sAction.deleteSecret (goTrim app.k8sNamespace) "secret"
        ("noppflow-run-" ++ toString runID ++ "-ssh")) := by
  simp only [runAppAsK8sJob]
  rw [if_neg hns, if_neg hsa, if_neg himg, if_neg (buildK8sJobScript_trim_ne app), hsec2]
  cases env2.jobApplyErr with
  | some e => rfl
  | none => rfl

theorem pollLoop_timeout :
    ∀ (iters : List PollIter) (lastLog : String),
      (∀ it ∈ iters, ∀ p : Bool × Bool, it.doneRes = some p → p.1 = false) →
      (pollLoop iters lastLog).success = false
      ∧ ∃ pre : String, (pollLoop iters lastLog).log = pre ++ "k8s job timed out" := by
  intro iters
  induction iters with
  | nil =>
    intro lastLog _
    refine ⟨rfl, ?_⟩
    by_cases he : lastLog = ""
    · refine ⟨"", ?_⟩
      simp only [pollLoop, if_pos he]
      exact (str_empty_append _).symm
    · refine ⟨lastLog ++ "\n\n", ?_⟩
      simp only [pollLoop, if_neg he]
      rw [String.append_assoc]
      rfl
  | cons it rest ih =>
    intro lastLog hno
    have hrest : ∀ it2 ∈ rest, ∀ p : Bool × Bool, it2.doneRes = some p → p.1 = false :=
      fun it2 h2 => hno it2 (List.mem_cons_of_mem it h2)
    cases hd : it.doneRes with
    | none =>
      simp only [pollLoop, hd]
      exact ih _ hrest
    | some p =>
      obtain ⟨d, sc⟩ := p
      have hd0 : d = false := hno it (List.mem_cons_self it rest) (d, sc) hd
      rw [hd0] at hd
      simp only [pollLoop, hd]
      exact ih _ hrest

/-- C6.  Once the credential secret has been created, every exit path of
`runAppAsK8sJob` (job-creation failure, terminal success, terminal failure,
or timeout) ends with the best-effort deletion of that secret; and if the
poll loop never observes a terminal job status before the deadline, the run
fails with the timeout marker appended to the log. -/
theorem k8sJob_timeout_and_secret_cleanup (env : K8sEnv) (runID : Int) (app : App)
    (hns : goTrim app.k8sNamespace ≠ "") (hsa : goTrim app.k8sServiceAccount ≠ "")
    (himg : goTrim app.k8sRunnerImage ≠ "")
    (hsec : env.secretApplyErr = none) (hjob : env.jobApplyErr = none)
    (hnoterm : ∀ it ∈ env.iters, ∀ p : Bool × Bool, it.doneRes = some p → p.1 = false) :
    (∀ env2 : K8sEnv, env2.secretApplyErr = none →
      (runAppAsK8sJob env2 runID app).actions.getLast? =
        some (K8sAction.deleteSecret (goTrim app.k8sNamespace) "secret"
          ("noppflow-run-" ++ toString runID ++ "-ssh")))
    ∧ (runAppAsK8sJob env runID app).result.success = false
    ∧ ∃ pre : String, (runAppAsK8sJob env runID app).result.log = pre ++ "k8s job timed out" := by
  have hres : (runAppAsK8sJob env runID app).result = pollLoop env.iters "" := by
    simp only [runAppAsK8sJob]
    rw [if_neg hns, if_neg hsa, if_neg himg, if_neg (buildK8sJobScript_trim_ne app), hsec, hjob]
  obtain ⟨hp1, hp2⟩ := pollLoop_timeout env.iters "" hnoterm
  refine ⟨fun env2 hsec2 => k8s_actions_last env2 runID app hns hsa himg hsec2, ?_, ?_⟩
  · rw [hres]
    exact hp1
  · rw [hres]
    exact hp2

theorem k8sJob_timeout_and_secret_cleanup_witness :
    (∀ env2 : K8sEnv, env2.secretApplyErr = none →
      (runAppAsK8sJob env2 7 wAppK8s).actions.getLast? =
        some (K8sAction.deleteSecret (goTrim wAppK8s.k8sNamespace) "secret"
          ("noppflow-run-" ++ toString (7 : Int) ++ "-ssh")))
    ∧ (runAppAsK8sJob wK8sEnvTimeout 7 wAppK8s).result.success = false
    ∧ ∃ pre : String,
        (runAppAsK8sJob wK8sEnvTimeout 7 wAppK8s).result.log = pre ++ "k8s job timed out" :=
  k8sJob_timeout_and_secret_cleanup wK8sEnvTimeout 7 wAppK8s (by decide) (by decide)
    (by decide) (by decide) (by decide) (by decide)

theorem stepLines_eq_spec (app : App) (s : Step)
    (hm : s.kind = "k8s_deploy" →
      (app.deployMode = "kubectl" ∨ (app.deployMode = "helm" ∧ app.id ≠ ""))) :
    stepScriptLines app s = specStepLines app s := by
  unfold stepScriptLines specStepLines
  rcases kind_cases s with h0 | h0 | h0 | h0 | h0
  · rw [h0]; rfl
  · rw [h0]; rfl
  · rw [h0]; rfl
  · rw [h0]; rfl
  · rw [h0]
    rcases hm h0 with hk | ⟨hh, hid⟩
    · rw [hk]
      rw [(by decide : goTrim (goToLower "kubectl") = "kubectl")]
      simp
    · rw [hh]
      rw [(by decide : goTrim (goToLower "helm") = "helm")]
      simp [hid]

theorem concatMapLines_congr (f g : Step → List String) :
    ∀ l : List Step, (∀ s ∈ l, f s = g s) →
      concatMapLines f l = concatMapLines g l := by
  intro l
  induction l with
  | nil => intro _; rfl
  | cons a rest ih =>
    intro h
    simp only [concatMapLines]
    rw [h a (List.mem_cons_self a rest), ih (fun s hs => h s (List.mem_cons_of_mem a hs))]

set_option maxRecDepth 20000 in
/-- C8 counterexample: with deploy mode `"Kubectl"` the Local Executor
(which trims and lowercases the mode) would run kubectl, but the cluster
renderer compares the raw string and renders no deploy command at all, so
the two dispatches disagree. -/
theorem k8sScript_dispatch_counterexample :
    buildK8sJobScript cApp8 ≠ specClusterScript cApp8 := by decide

/-- C8 (amended).  The cluster script renders, for every effective step in
order, the same four-way dispatch as the Local Executor — unconditionally
for cmd/file/script steps, and for `k8s_deploy` steps provided the deploy
mode is literally `"kubectl"` or `"helm"` (the renderer does not trim or
lowercase it) and, for helm, the app id is non-empty (the renderer does not
substitute the default release name). -/
theorem k8sScript_matches_spec_dispatch (app : App)
    (hmode : ∀ s ∈ app.effectiveSteps, s.kind = "k8s_deploy" →
      (app.deployMode = "kubectl" ∨ (app.deployMode = "helm" ∧ app.id ≠ ""))) :
    buildK8sJobScript app = specClusterScript app := by
  unfold buildK8sJobScript specClusterScript
  rw [concatMapLines_congr (stepScriptLines app) (specStepLines app) app.effectiveSteps
    (fun s hs => stepLines_eq_spec app s (hmode s hs))]

theorem k8sScript_matches_spec_dispatch_witness :
    buildK8sJobScript wAppK8s = specClusterScript wAppK8s :=
  k8sScript_matches_spec_dispatch wAppK8s (by decide)

theorem splitAux_no_quote :
    ∀ (l : List Char) (buf : List Char), (∀ c ∈ l, c ≠ '"' ∧ c ≠ '\'') →
      splitAux l buf false = wordsAux (fun c => c = ' ') l buf := by
  intro l
  induction l with
  | nil => intro buf _; rfl
  | cons c rest ih =>
    intro buf hq
    have hqc := hq c (List.mem_cons_self c rest)
    have hqrest : ∀ c2 ∈ rest, c2 ≠ '"' ∧ c2 ≠ '\'' :=
      fun c2 h2 => hq c2 (List.mem_cons_of_mem c h2)
    by_cases hc : c = ' '
    · simp [splitAux, wordsAux, hc, ih [] hqrest]
    · simp [splitAux, wordsAux, hc, hqc.1, hqc.2, ih (buf ++ [c]) hqrest]

theorem splitAux_quoted :
    ∀ (l : List Char) (buf : List Char), (∀ c ∈ l, c ≠ '"' ∧ c ≠ '\'') →
      splitAux (l ++ ['\'']) buf true =
        if (buf ++ l).isEmpty then [] else [String.mk (buf ++ l)] := by
  intro l
  induction l with
  | nil =>
    intro buf _
    simp [splitAux]
  | cons c rest ih =>
    intro buf hq
    have hqc := hq c (List.mem_cons_self c rest)
    have hqrest : ∀ c2 ∈ rest, c2 ≠ '"' ∧ c2 ≠ '\'' :=
      fun c2 h2 => hq c2 (List.mem_cons_of_mem c h2)
    by_cases hc : c = ' '
    · simp [splitAux, hc, ih (buf ++ [' ']) hqrest]
    · simp [splitAux, hc, hqc.1, hqc.2, ih (buf ++ [c]) hqrest]

/-- C9 counterexample: `splitCommand` splits only on the space character,
not on whitespace: a tab does not separate words, so on the quote-free
input `"a\tb"` the result is not the whitespace-separated word list. -/
theorem splitCommand_whitespace_counterexample :
    (∀ c ∈ ("a\tb" : String).data, c ≠ '"' ∧ c ≠ '\'')
    ∧ splitCommand "a\tb" = ["a\tb"]
    ∧ wsWords "a\tb" = ["a", "b"]
    ∧ splitCommand "a\tb" ≠ wsWords "a\tb" := by decide

/-- C9 (amended).  `splitCommand` splits on the space character (only),
treating quote characters as toggles that suppress splitting and are
removed: on quote-free input it yields the space-separated non-empty words,
and a single-quoted region is kept as one word without its quotes. -/
theorem splitCommand_amended_characterization :
    (∀ s : String, (∀ c ∈ s.data, c ≠ '"' ∧ c ≠ '\'') →
      splitCommand s = spaceWords s)
    ∧ (∀ b : String, (∀ c ∈ b.data, c ≠ '"' ∧ c ≠ '\'') →
      splitCommand ("'" ++ b ++ "'") = if b = "" then [] else [b]) := by
  constructor
  · intro s hs
    exact splitAux_no_quote s.data [] hs
  · intro b hb
    have hdata : ("'" ++ b ++ "'").data = '\'' :: (b.data ++ ['\'']) := by
      simp [String.data_append]
    unfold splitCommand
    rw [hdata]
    have hstep : splitAux ('\'' :: (b.data ++ ['\''])) [] false
        = splitAux (b.data ++ ['\'']) [] true := by
      simp [splitAux]
    rw [hstep, splitAux_quoted b.data [] hb]
    simp only [List.nil_append]
    by_cases hbe : b = ""
    · have hdat : b.data.isEmpty = true := by rw [hbe]; rfl
      rw [if_pos hdat, if_pos hbe]
    · have hne : ¬(b.data.isEmpty = true) := by
        intro hempty
        apply hbe
        apply String.ext
        simpa using hempty
      rw [if_neg hne, if_neg hbe]

theorem splitCommand_amended_characterization_witness :
    splitCommand "go test ./..." = spaceWords "go test ./..." :=
  splitCommand_amended_characterization.1 "go test ./..." (by decide)

end Piaflow
